import Mathlib

/-!
Shallow embedding of the shell-script rewriting tool (fix_braces.py,
refactor_env_injection.py, refactor_sprite_env.py).

Python strings are modelled as `List Char`; Python `str` methods are
translated one-for-one into list functions.  Unicode-sensitive Python
character classes (`str.strip` whitespace, `\w`, `\d`) are modelled by
their ASCII restrictions, which is what every input this repository
touches uses.  Recursive scanners are written with an explicit fuel
argument (fuel = input length always suffices, proved below) so that all
definitions compute by kernel reduction.
-/

namespace Spawn

/-- Whitespace characters stripped by Python `str.strip` / `str.lstrip`
(ASCII part of the Python whitespace set). -/
def pyWs (c : Char) : Bool :=
  c = ' ' || c = '\t' || c = '\n' || c = '\r' || c = '\x0b' || c = '\x0c'

/-- `fix_braces.should_skip_variable`: membership of the matched variable
name in the set of special shell variable names (each a one-character
string in the Python source). -/
def should_skip_variable (name : List Char) : Bool :=
  [['@'], ['*'], ['!'], ['?'], ['$'], ['-'], ['#'],
   ['0'], ['1'], ['2'], ['3'], ['4'], ['5'], ['6'], ['7'], ['8'], ['9']].contains name

/-- The test `line[i + 1] in '@*!?$-#0123456789'` from `add_braces_to_line`. -/
def isSpecialSigil (c : Char) : Bool :=
  c = '@' || c = '*' || c = '!' || c = '?' || c = '$' || c = '-' || c = '#' ||
  c = '0' || c = '1' || c = '2' || c = '3' || c = '4' ||
  c = '5' || c = '6' || c = '7' || c = '8' || c = '9'

/-- First character class of the regex `[A-Za-z_][A-Za-z0-9_]*`. -/
def identStart (c : Char) : Bool := c.isAlpha || c = '_'

/-- Continuation character class of the regex `[A-Za-z_][A-Za-z0-9_]*`. -/
def identChar (c : Char) : Bool := c.isAlphanum || c = '_'

/-- The scanning loop of `fix_braces.add_braces_to_line`, fuelled.  One unit
of fuel is spent per loop iteration; every iteration consumes at least one
input character, so `fuel = input length` always suffices (the fuel-zero
branch is never reached from `scan` below). -/
def scanFuel : Nat → List Char → List Char
  | 0, l => l
  | _ + 1, [] => []
  | fuel + 1, c :: rest =>
    if c = '$' then
      match rest with
      | [] => ['$']
      | d :: r =>
        if d = '{' then
          '$' :: '{' :: scanFuel fuel r
        else if isSpecialSigil d then
          '$' :: d :: scanFuel fuel r
        else if identStart d then
          if should_skip_variable (d :: r.takeWhile identChar) then
            '$' :: d :: (r.takeWhile identChar ++ scanFuel fuel (r.dropWhile identChar))
          else
            '$' :: '{' :: d :: (r.takeWhile identChar ++ '}' :: scanFuel fuel (r.dropWhile identChar))
        else
          '$' :: scanFuel fuel (d :: r)
    else
      c :: scanFuel fuel rest

/-- The scanning loop of `add_braces_to_line` over one whole line. -/
def scan (l : List Char) : List Char := scanFuel l.length l

/-- The guard `line.lstrip().startswith('#')` of `add_braces_to_line`. -/
def isCommentLine (l : List Char) : Bool :=
  (l.dropWhile pyWs).head? == some '#'

/-- `fix_braces.add_braces_to_line`. -/
def add_braces_to_line (l : List Char) : List Char :=
  if isCommentLine l then l else scan l

/-- `fix_braces.fix_file`, modelled on its observable file state: the input
is the list of lines read from disk (`f.readlines()`), `oracle` is the
external `bash -n` syntax-validity check applied to the lines present on
disk at that moment, and the result is the pair (return value, lines on
disk when the call returns).  The source writes the fixed lines, runs the
oracle, and rewrites the original lines if the oracle fails, so the final
disk state is as modelled here. -/
def fix_file (oracle : List (List Char) → Bool) (lines : List (List Char)) :
    Bool × List (List Char) :=
  let fixed_lines := lines.map add_braces_to_line
  if lines = fixed_lines then (false, lines)
  else if oracle fixed_lines then (true, fixed_lines)
  else (false, lines)

/-! ### Fuel elimination for the scanner -/

theorem scanFuel_congr :
    ∀ (f g : Nat) (l : List Char), l.length ≤ f → l.length ≤ g →
      scanFuel f l = scanFuel g l := by
  intro f
  induction f with
  | zero =>
    intro g l hf _
    have hl : l = [] := List.length_eq_zero.mp (Nat.le_zero.mp hf)
    subst hl
    cases g <;> rfl
  | succ f ih =>
    intro g l hf hg
    match l with
    | [] => cases g <;> rfl
    | c :: rest =>
      cases g with
      | zero => exact absurd hg (by simp)
      | succ g =>
        have hf1 : rest.length ≤ f := by simp at hf; omega
        have hg1 : rest.length ≤ g := by simp at hg; omega
        by_cases hc : c = '$'
        · subst hc
          match rest with
          | [] => rfl
          | d :: r =>
            have hrf : r.length ≤ f := le_trans (by simp) hf1
            have hrg : r.length ≤ g := le_trans (by simp) hg1
            have hdf : (r.dropWhile identChar).length ≤ f :=
              le_trans (List.dropWhile_sublist _).length_le hrf
            have hdg : (r.dropWhile identChar).length ≤ g :=
              le_trans (List.dropWhile_sublist _).length_le hrg
            simp only [scanFuel]
            by_cases hd1 : d = '{'
            · simp [hd1, ih g r hrf hrg]
            · by_cases hd2 : isSpecialSigil d
              · simp [hd1, hd2, ih g r hrf hrg]
              · by_cases hd3 : identStart d
                · by_cases hd4 : should_skip_variable (d :: r.takeWhile identChar)
                  · simp [hd1, hd2, hd3, hd4, ih g _ hdf hdg]
                  · simp [hd1, hd2, hd3, hd4, ih g _ hdf hdg]
                · simp [hd1, hd2, hd3, ih g (d :: r) hf1 hg1]
        · simp only [scanFuel, if_neg hc]
          exact congrArg _ (ih g rest hf1 hg1)

theorem scanFuel_eq_scan (f : Nat) (l : List Char) (h : l.length ≤ f) :
    scanFuel f l = scan l :=
  scanFuel_congr f l.length l h le_rfl

/-! ### Clean unfolding equations for `scan` -/

theorem scan_nil : scan [] = [] := rfl

theorem scan_cons_ne (c : Char) (rest : List Char) (h : c ≠ '$') :
    scan (c :: rest) = c :: scan rest := by
  simp only [scan, List.length_cons, scanFuel, if_neg h]

theorem scan_dollar_nil : scan ['$'] = ['$'] := rfl

theorem scan_braced (r : List Char) : scan ('$' :: '{' :: r) = '$' :: '{' :: scan r := by
  simp only [scan, List.length_cons, scanFuel, if_pos rfl]
  norm_num [scanFuel_congr (r.length + 1) r.length r (by omega) le_rfl]

theorem isSpecialSigil_cases (c : Char) (h : isSpecialSigil c = true) :
    c = '@' ∨ c = '*' ∨ c = '!' ∨ c = '?' ∨ c = '$' ∨ c = '-' ∨ c = '#' ∨
    c = '0' ∨ c = '1' ∨ c = '2' ∨ c = '3' ∨ c = '4' ∨
    c = '5' ∨ c = '6' ∨ c = '7' ∨ c = '8' ∨ c = '9' := by
  simp [isSpecialSigil] at h
  tauto

theorem isSpecialSigil_ne_brace (c : Char) (h : isSpecialSigil c = true) : c ≠ '{' := by
  rcases isSpecialSigil_cases c h with
    rfl | rfl | rfl | rfl | rfl | rfl | rfl | rfl | rfl | rfl | rfl | rfl | rfl | rfl | rfl | rfl | rfl <;>
    decide

theorem identStart_not_special (c : Char) (h : identStart c = true) :
    isSpecialSigil c = false := by
  rw [Bool.eq_false_iff]
  intro hc
  rcases isSpecialSigil_cases c hc with
    rfl | rfl | rfl | rfl | rfl | rfl | rfl | rfl | rfl | rfl | rfl | rfl | rfl | rfl | rfl | rfl | rfl <;>
    exact absurd h (by decide)

theorem identStart_ne_brace (c : Char) (h : identStart c = true) : c ≠ '{' := by
  rintro rfl
  exact absurd h (by decide)

theorem identStart_ne_dollar (c : Char) (h : identStart c = true) : c ≠ '$' := by
  rintro rfl
  exact absurd h (by decide)

theorem identChar_ne_dollar (c : Char) (h : identChar c = true) : c ≠ '$' := by
  rintro rfl
  exact absurd h (by decide)

theorem pyWs_ne_dollar (c : Char) (h : pyWs c = true) : c ≠ '$' := by
  simp [pyWs] at h
  rcases h with ((((rfl | rfl) | rfl) | rfl) | rfl) | rfl <;> decide

theorem should_skip_eq_false (d : Char) (xs : List Char) (h : identStart d = true) :
    should_skip_variable (d :: xs) = false := by
  rw [Bool.eq_false_iff]
  intro hc
  rw [should_skip_variable, List.elem_iff] at hc
  simp only [List.mem_cons, List.cons.injEq, List.mem_singleton, List.not_mem_nil,
    or_false] at hc
  rcases hc with ⟨rfl, _⟩ | ⟨rfl, _⟩ | ⟨rfl, _⟩ | ⟨rfl, _⟩ | ⟨rfl, _⟩ | ⟨rfl, _⟩ | ⟨rfl, _⟩ |
    ⟨rfl, _⟩ | ⟨rfl, _⟩ | ⟨rfl, _⟩ | ⟨rfl, _⟩ | ⟨rfl, _⟩ | ⟨rfl, _⟩ | ⟨rfl, _⟩ | ⟨rfl, _⟩ |
    ⟨rfl, _⟩ | ⟨rfl, _⟩ <;>
    exact absurd h (by decide)

theorem scan_special_core (d : Char) (r : List Char) (hd : isSpecialSigil d = true)
    (hd1 : d ≠ '{') :
    scan ('$' :: d :: r) = '$' :: d :: scan r := by
  simp only [scan, List.length_cons, scanFuel, if_pos rfl]
  norm_num [hd1, hd, scanFuel_congr (r.length + 1) r.length r (by omega) le_rfl]

theorem scan_ident_core (d : Char) (r : List Char)
    (hd1 : d ≠ '{') (hd2 : isSpecialSigil d = false) (hd3 : identStart d = true)
    (hd4 : should_skip_variable (d :: r.takeWhile identChar) = false) :
    scan ('$' :: d :: r) =
      '$' :: '{' :: d :: (r.takeWhile identChar ++ '}' :: scan (r.dropWhile identChar)) := by
  have hdrop : (r.dropWhile identChar).length ≤ r.length + 1 :=
    le_trans (List.dropWhile_sublist _).length_le (by omega)
  simp only [scan, List.length_cons, scanFuel, if_pos rfl]
  norm_num [hd1, hd2, hd3, hd4,
    scanFuel_congr (r.length + 1) (r.dropWhile identChar).length _ hdrop le_rfl]

theorem scan_other (d : Char) (r : List Char)
    (hd1 : d ≠ '{') (hd2 : isSpecialSigil d = false) (hd3 : identStart d = false) :
    scan ('$' :: d :: r) = '$' :: scan (d :: r) := by
  simp only [scan, List.length_cons, scanFuel, if_pos rfl]
  norm_num [hd1, hd2, hd3,
    scanFuel_congr (r.length + 1) (d :: r).length (d :: r) (by simp) le_rfl]

theorem scan_special (d : Char) (r : List Char) (hd : isSpecialSigil d = true) :
    scan ('$' :: d :: r) = '$' :: d :: scan r :=
  scan_special_core d r hd (isSpecialSigil_ne_brace d hd)

theorem scan_ident (d : Char) (r : List Char) (hd : identStart d = true) :
    scan ('$' :: d :: r) =
      '$' :: '{' :: d :: (r.takeWhile identChar ++ '}' :: scan (r.dropWhile identChar)) :=
  scan_ident_core d r (identStart_ne_brace d hd) (identStart_not_special d hd) hd
    (should_skip_eq_false d _ hd)

theorem scan_append_of_no_dollar (xs t : List Char) (h : ∀ x ∈ xs, x ≠ '$') :
    scan (xs ++ t) = xs ++ scan t := by
  induction xs with
  | nil => simp
  | cons c cs ih =>
    have hc : c ≠ '$' := h c (by simp)
    rw [List.cons_append, scan_cons_ne c _ hc,
      ih (fun x hx => h x (List.mem_cons_of_mem _ hx))]
    rfl

theorem scan_head (c : Char) (l : List Char) : ∃ t, scan (c :: l) = c :: t := by
  by_cases hc : c = '$'
  · subst hc
    match l with
    | [] => exact ⟨[], scan_dollar_nil⟩
    | d :: r =>
      by_cases h1 : d = '{'
      · subst h1
        exact ⟨_, scan_braced r⟩
      · by_cases h2 : isSpecialSigil d = true
        · exact ⟨_, scan_special d r h2⟩
        · by_cases h3 : identStart d = true
          · exact ⟨_, scan_ident d r h3⟩
          · exact ⟨_, scan_other d r h1 (Bool.eq_false_iff.mpr h2) (Bool.eq_false_iff.mpr h3)⟩
  · exact ⟨_, scan_cons_ne c l hc⟩

theorem isCommentLine_scan (l : List Char) (h : isCommentLine l = false) :
    isCommentLine (scan l) = false := by
  induction l with
  | nil => simpa using h
  | cons c cs ih =>
    by_cases hw : pyWs c = true
    · have hc : c ≠ '$' := pyWs_ne_dollar c hw
      rw [scan_cons_ne c cs hc]
      have h1 : isCommentLine cs = false := by
        simpa [isCommentLine, List.dropWhile, hw] using h
      simpa [isCommentLine, List.dropWhile, hw] using ih h1
    · obtain ⟨t, ht⟩ := scan_head c cs
      rw [ht]
      have hw2 : pyWs c = false := Bool.eq_false_iff.mpr hw
      have hch : ¬ c = '#' := by
        simp [isCommentLine, List.dropWhile, hw2] at h
        exact h
      simp [isCommentLine, List.dropWhile, hw2, hch]

theorem scan_scan (l : List Char) : scan (scan l) = scan l := by
  suffices h : ∀ (n : Nat) (l : List Char), l.length ≤ n → scan (scan l) = scan l from
    h l.length l le_rfl
  intro n
  induction n with
  | zero =>
    intro l hl
    have : l = [] := List.length_eq_zero.mp (Nat.le_zero.mp hl)
    subst this
    simp [scan_nil]
  | succ n ih =>
    intro l hl
    match l with
    | [] => simp [scan_nil]
    | c :: rest =>
      have hrest : rest.length ≤ n := by simp at hl; omega
      by_cases hc : c = '$'
      · subst hc
        match rest with
        | [] => rw [scan_dollar_nil, scan_dollar_nil]
        | d :: r =>
          have hr : r.length ≤ n := by simp at hrest; omega
          have hdw : (r.dropWhile identChar).length ≤ n :=
            le_trans (List.dropWhile_sublist _).length_le hr
          by_cases h1 : d = '{'
          · subst h1
            rw [scan_braced, scan_braced, ih r hr]
          · by_cases h2 : isSpecialSigil d = true
            · rw [scan_special d r h2, scan_special d _ h2, ih r hr]
            · by_cases h3 : identStart d = true
              · rw [scan_ident d r h3, scan_braced]
                have hxs : ∀ x ∈ d :: r.takeWhile identChar, x ≠ '$' := by
                  intro x hx
                  rcases List.mem_cons.mp hx with rfl | hx2
                  · exact identStart_ne_dollar x h3
                  · exact identChar_ne_dollar x (List.mem_takeWhile_imp hx2)
                calc '$' :: '{' :: scan (d :: (r.takeWhile identChar ++ '}' ::
                        scan (r.dropWhile identChar)))
                    = '$' :: '{' :: scan ((d :: r.takeWhile identChar) ++ '}' ::
                        scan (r.dropWhile identChar)) := by simp
                  _ = '$' :: '{' :: ((d :: r.takeWhile identChar) ++
                        scan ('}' :: scan (r.dropWhile identChar))) := by
                        rw [scan_append_of_no_dollar _ _ hxs]
                  _ = '$' :: '{' :: ((d :: r.takeWhile identChar) ++
                        '}' :: scan (scan (r.dropWhile identChar))) := by
                        rw [scan_cons_ne _ _ (by decide)]
                  _ = '$' :: '{' :: d :: (r.takeWhile identChar ++ '}' ::
                        scan (r.dropWhile identChar)) := by
                        rw [ih _ hdw]; simp
              · have h1b : d ≠ '{' := h1
                have h2b : isSpecialSigil d = false := Bool.eq_false_iff.mpr h2
                have h3b : identStart d = false := Bool.eq_false_iff.mpr h3
                have hd : d ≠ '$' := by
                  rintro rfl
                  exact absurd (by decide : isSpecialSigil '$' = true)
                    (by rw [h2b]; decide)
                rw [scan_other d r h1b h2b h3b, scan_cons_ne d r hd,
                  scan_other d _ h1b h2b h3b, scan_cons_ne d _ hd, ih r hr]
      · rw [scan_cons_ne c rest hc, scan_cons_ne c _ hc, ih rest hrest]

theorem add_braces_to_line_idem (l : List Char) :
    add_braces_to_line (add_braces_to_line l) = add_braces_to_line l := by
  unfold add_braces_to_line
  by_cases h : isCommentLine l = true
  · simp [h]
  · have hf : isCommentLine l = false := Bool.eq_false_iff.mpr h
    have h2 := isCommentLine_scan l hf
    simp [hf, h2, scan_scan]

/-! ### Python string utilities used by the refactor scripts -/

/-- Python `str.strip()` (ASCII part of the whitespace set). -/
def pyStrip (l : List Char) : List Char :=
  ((l.dropWhile pyWs).reverse.dropWhile pyWs).reverse

/-- Python `str.split('\n')`. -/
def splitNL : List Char → List (List Char)
  | [] => [[]]
  | c :: rest =>
    if c = '\n' then [] :: splitNL rest
    else
      match splitNL rest with
      | [] => [[c]]
      | h :: t => (c :: h) :: t

/-- Python `needle in haystack` substring membership. -/
def containsSub (pat : List Char) : List Char → Bool
  | [] => pat.isEmpty
  | c :: rest => pat.isPrefixOf (c :: rest) || containsSub pat rest

/-- The loop of Python `str.replace(old, new)`: replace non-overlapping
occurrences left to right, fuelled.  When `old` is nonempty (every call
site in the repository passes a nonempty `old`) each step consumes at
least one character, so `fuel = input length` suffices and the fuel-zero
branch is never reached from `pyReplace` below. -/
def pyReplaceFuel : Nat → List Char → List Char → List Char → List Char
  | 0, _, _, s => s
  | _ + 1, _, _, [] => []
  | fuel + 1, old, new, c :: rest =>
    if old.isPrefixOf (c :: rest) then
      new ++ pyReplaceFuel fuel old new ((c :: rest).drop old.length)
    else
      c :: pyReplaceFuel fuel old new rest

/-- Python `s.replace(old, new)`. -/
def pyReplace (old new s : List Char) : List Char := pyReplaceFuel s.length old new s

theorem pyReplaceFuel_congr (old new : List Char) (hold : old ≠ []) :
    ∀ (f g : Nat) (s : List Char), s.length ≤ f → s.length ≤ g →
      pyReplaceFuel f old new s = pyReplaceFuel g old new s := by
  intro f
  induction f with
  | zero =>
    intro g s hf _
    have hs : s = [] := List.length_eq_zero.mp (Nat.le_zero.mp hf)
    subst hs
    cases g <;> rfl
  | succ f ih =>
    intro g s hf hg
    match s with
    | [] => cases g <;> rfl
    | c :: rest =>
      cases g with
      | zero => exact absurd hg (by simp)
      | succ g =>
        have hf1 : rest.length ≤ f := by simp at hf; omega
        have hg1 : rest.length ≤ g := by simp at hg; omega
        have hol : 1 ≤ old.length := by
          cases old
          · exact absurd rfl hold
          · simp
        have hdf : ((c :: rest).drop old.length).length ≤ f := by
          simp [List.length_drop]
          omega
        have hdg : ((c :: rest).drop old.length).length ≤ g := by
          simp [List.length_drop]
          omega
        simp only [pyReplaceFuel]
        by_cases hp : old.isPrefixOf (c :: rest) = true
        · simp [hp, ih g _ hdf hdg]
        · simp [Bool.eq_false_iff.mpr hp, ih g rest hf1 hg1]

theorem pyReplace_nil (old new : List Char) : pyReplace old new [] = [] := rfl

theorem pyReplace_pos (old new : List Char) (hold : old ≠ []) (c : Char) (rest : List Char)
    (hp : old.isPrefixOf (c :: rest) = true) :
    pyReplace old new (c :: rest) = new ++ pyReplace old new ((c :: rest).drop old.length) := by
  have hol : 1 ≤ old.length := by
    cases old
    · exact absurd rfl hold
    · simp
  have hlen : ((c :: rest).drop old.length).length ≤ rest.length := by
    simp [List.length_drop]
    omega
  simp only [pyReplace, List.length_cons, pyReplaceFuel, hp, if_true]
  rw [pyReplaceFuel_congr old new hold rest.length _ _ hlen le_rfl]

theorem pyReplace_neg (old new : List Char) (c : Char) (rest : List Char)
    (hp : old.isPrefixOf (c :: rest) = false) :
    pyReplace old new (c :: rest) = c :: pyReplace old new rest := by
  simp only [pyReplace, List.length_cons, pyReplaceFuel, hp]
  simp

theorem pyReplace_of_no_occurrence (old new : List Char) :
    ∀ s, containsSub old s = false → pyReplace old new s = s := by
  intro s
  induction s with
  | nil => intro _; rfl
  | cons c rest ih =>
    intro h
    simp only [containsSub, Bool.or_eq_false_iff] at h
    rw [pyReplace_neg old new c rest h.1, ih h.2]

theorem pyReplace_prefix_step (old new v : List Char) (hold : old ≠ []) :
    pyReplace old new (old ++ v) = new ++ pyReplace old new v := by
  match old, hold with
  | o :: os, _ =>
    have hp : (o :: os).isPrefixOf ((o :: os) ++ v) = true :=
      List.isPrefixOf_iff_prefix.mpr (List.prefix_append _ _)
    have he : (o :: os) ++ v = o :: (os ++ v) := rfl
    rw [he] at hp
    rw [he, pyReplace_pos _ new (by simp) o (os ++ v) hp]
    congr 1
    congr 1
    rw [← he, List.drop_left]

/-! ### The env-block extraction loop

This is the loop of `refactor_env_injection.refactor_ssh_cloud_script`
(lines 81-91); `refactor_sprite_env.refactor_sprite_script` (lines 37-47)
contains the identical code, so both scripts are modelled by the same
definitions. -/

/-- The canonicalization chain applied to a stripped export line: the three
`str.replace` calls on `var_line`. -/
def canonEnvRefs (v : List Char) : List Char :=
  pyReplace ("${MODEL_ID}".data) ("$MODEL_ID".data)
    (pyReplace ("${OPENROUTER_API_KEY}".data) ("$OPENROUTER_API_KEY".data)
      (pyReplace ("\"${OPENROUTER_API_KEY}\"".data) ("$OPENROUTER_API_KEY".data) v))

/-- Processing of one qualifying (stripped) line: `line.replace('export ', '')`,
the canonicalization chain, then wrapping in double quotes (`f'"{var_line}"'`). -/
def processExportLine (t : List Char) : List Char :=
  '"' :: (canonEnvRefs (pyReplace ("export ".data) [] t) ++ ['"'])

/-- The `for line in heredoc_content.split('\n')` loop body. -/
def extractLoop : List (List Char) → List (List Char)
  | [] => []
  | l :: ls =>
    if ("export ".data).isPrefixOf (pyStrip l) then
      processExportLine (pyStrip l) :: extractLoop ls
    else
      extractLoop ls

/-- Extraction of the quoted env-var arguments from a captured heredoc body. -/
def extract_env_args (heredoc : List Char) : List (List Char) :=
  extractLoop (splitNL heredoc)

/-- Specification-side definition (spec §4.3, claim C7): the sequence of
qualifying export lines of a heredoc body, in order: the lines that after
trimming begin with the `export ` keyword. -/
def qualifyingExportLines (heredoc : List Char) : List (List Char) :=
  ((splitNL heredoc).map pyStrip).filter (fun t => ("export ".data).isPrefixOf t)

theorem extractLoop_eq_filter_map (ls : List (List Char)) :
    extractLoop ls =
      ((ls.map pyStrip).filter (fun t => ("export ".data).isPrefixOf t)).map
        processExportLine := by
  induction ls with
  | nil => rfl
  | cons l ls ih =>
    by_cases h : ("export ".data).isPrefixOf (pyStrip l) = true
    · simp [extractLoop, h, ih]
    · simp [extractLoop, Bool.eq_false_iff.mpr h, ih]

/-! ### A small regular-expression engine

The refactor scripts drive Python's `re` module with
`re.MULTILINE | re.DOTALL` over a fixed family of patterns built from
literal text, `(?:A|B)` alternation, greedy `\d+` / `\w+`, lazy `.*?`, an
optional literal line `(?:...)?`, the `^` anchor and one capturing group.
`reMs` enumerates, in Python's backtracking preference order, every way an
expression can match a prefix of the input, as pairs of (consumed length,
group-1 span relative to the input start); `prev` is the character
immediately before the input, needed by `^` under MULTILINE.  The head of
the enumeration is the match Python commits to at a given position. -/

inductive RExp where
  | lit : List Char → RExp
  | plusCls : (Char → Bool) → RExp
  | lazyStarAny : RExp
  | seq : RExp → RExp → RExp
  | alt : RExp → RExp → RExp
  | grp : RExp → RExp
  | opt : RExp → RExp
  | bol : RExp

/-- Group-1 bookkeeping: a later assignment overwrites an earlier one. -/
def grpMerge (g1 g2 : Option (Nat × Nat)) : Option (Nat × Nat) :=
  match g2 with
  | some x => some x
  | none => g1

/-- Shift a group span by the amount of input already consumed. -/
def grpShift (n : Nat) : Option (Nat × Nat) → Option (Nat × Nat)
  | none => none
  | some (a, b) => some (n + a, n + b)

def reMs : RExp → Option Char → List Char → List (Nat × Option (Nat × Nat))
  | .lit s, _, inp => if s.isPrefixOf inp then [(s.length, none)] else []
  | .plusCls p, _, inp =>
    let k := (inp.takeWhile p).length
    (List.range k).map (fun j => (k - j, none))
  | .lazyStarAny, _, inp => (List.range (inp.length + 1)).map (fun j => (j, none))
  | .seq a b, prev, inp =>
    (reMs a prev inp).flatMap (fun pr =>
      (reMs b (if pr.1 = 0 then prev else (inp.take pr.1).getLast?) (inp.drop pr.1)).map
        (fun qr => (pr.1 + qr.1, grpMerge pr.2 (grpShift pr.1 qr.2))))
  | .alt a b, prev, inp => reMs a prev inp ++ reMs b prev inp
  | .grp r, prev, inp => (reMs r prev inp).map (fun pr => (pr.1, some (0, pr.1)))
  | .opt r, prev, inp => reMs r prev inp ++ [(0, none)]
  | .bol, prev, _ => if prev = none || prev = some '\n' then [(0, none)] else []

/-- `re.search`: try every start position left to right; at a position,
commit to the head of the backtracking enumeration.  Returns (start
position, consumed length, group-1 span in positions of the original
input). -/
def searchFrom (r : RExp) : Option Char → Nat → List Char →
    Option (Nat × Nat × Option (Nat × Nat))
  | prev, pos, inp =>
    match reMs r prev inp with
    | m :: _ => some (pos, m.1, grpShift pos m.2)
    | [] =>
      match inp with
      | [] => none
      | c :: rest => searchFrom r (some c) (pos + 1) rest

def reSearch (r : RExp) (inp : List Char) : Option (Nat × Nat × Option (Nat × Nat)) :=
  searchFrom r none 0 inp

/-- Expansion of the replacement template by `re.sub`.  `g1` is the text of
group 1.  The templates this repository builds contain backslash-newline
pairs, which Python keeps as-is (an unknown escape of a non-alphanumeric
character is left alone), and no other escapes; group references `\1` and
escaped backslashes `\\` are handled faithfully, and the remaining
backslash escapes (which never occur in the repository's templates) are
kept unchanged. -/
def expandTemplate (g1 : List Char) : List Char → List Char
  | [] => []
  | '\\' :: c :: rest =>
    if c = '1' then g1 ++ expandTemplate g1 rest
    else if c = '\\' then '\\' :: expandTemplate g1 rest
    else '\\' :: c :: expandTemplate g1 rest
  | c :: rest => c :: expandTemplate g1 rest

/-- `pattern.sub(template, content)`: repeatedly search, substitute the
expanded template, continue after the matched span.  Fuelled: every
pattern the repository builds starts with nonempty literal text, so each
substitution step consumes at least one character and `fuel = input
length` suffices; the zero-width guard mirrors that no such pattern
matches the empty string. -/
def subFuel (r : RExp) (tmpl : List Char) : Nat → Option Char → List Char → List Char
  | 0, _, inp => inp
  | fuel + 1, prev, inp =>
    match searchFrom r prev 0 inp with
    | none => inp
    | some (s, n, g) =>
      if n = 0 then inp
      else
        let g1 := match g with
          | none => []
          | some (a, b) => (inp.take b).drop a
        inp.take s ++ expandTemplate g1 tmpl ++
          subFuel r tmpl fuel ((inp.take (s + n)).getLast?) (inp.drop (s + n))

def reSub (r : RExp) (tmpl : List Char) (inp : List Char) : List Char :=
  subFuel r tmpl inp.length none inp

/-! ### The idiom patterns of the two refactor scripts

Transcribed from the `re.compile` calls.  `\d` and `\w` are modelled by
their ASCII restrictions (`Char.isDigit` and `identChar`,
i.e. `[A-Za-z0-9_]`). -/

/-- The fixed literal block of pattern 1 from the first escaped `log_warn`
line through `cat > "$ENV_TEMP" << EOF\n` (including the blank line). -/
def p1Mid : List Char :=
  ("log_warn \"Setting up environment variables...\"\n\nENV_TEMP=$(mktemp)\nchmod 600 \"$ENV_TEMP\"\ncat > \"$ENV_TEMP\" << EOF\n").data

/-- The same block in pattern 2 (compact: no blank line). -/
def p2Head : List Char :=
  ("log_warn \"Setting up environment variables...\"\nENV_TEMP=$(mktemp)\nchmod 600 \"$ENV_TEMP\"\ncat > \"$ENV_TEMP\" << EOF\n").data

/-- The `upload_file` / `run_server` / `rm` literal lines, parameterized by
the destination identifier `server_ip_var`. -/
def uploadRunBlock (ipvar : List Char) : List Char :=
  ("upload_file \"$".data) ++ ipvar ++ ("\" \"$ENV_TEMP\" \"/tmp/env_config\"\nrun_server \"$".data) ++
    ipvar ++ ("\" \"cat /tmp/env_config >> ~/.zshrc && rm /tmp/env_config\"\nrm \"$ENV_TEMP\"\n".data)

/-- Pattern 1 of `refactor_ssh_cloud_script` (multi-line with comment
header: DigitalOcean, Hetzner). -/
def pattern1 (ipvar : List Char) : RExp :=
  .seq (.lit ("# ".data))
    (.seq (.alt (.seq (.plusCls Char.isDigit) (.lit (".".data)))
                (.seq (.plusCls identChar) (.lit (":".data))))
      (.seq (.lit (" ".data))
        (.seq (.alt (.lit ("Inject environment variables".data))
                    (.lit ("Setting up environment variables".data)))
          (.seq .lazyStarAny
            (.seq (.lit (("\n".data) ++ p1Mid))
              (.seq (.grp .lazyStarAny)
                (.seq .bol
                  (.lit (("EOF\n\n".data) ++ uploadRunBlock ipvar)))))))))

/-- Pattern 2 of `refactor_ssh_cloud_script` (compact, without header:
Linode, Vultr). -/
def pattern2 (ipvar : List Char) : RExp :=
  .seq (.lit p2Head)
    (.seq (.grp .lazyStarAny)
      (.seq .bol (.lit (("EOF\n".data) ++ uploadRunBlock ipvar))))

/-- The single pattern of `refactor_sprite_env.refactor_sprite_script`. -/
def spritePattern : RExp :=
  .seq (.lit ("# Inject environment variables\nlog_warn \"Setting up environment variables...\"\n\n".data))
    (.seq (.opt (.lit ("# Create temp file with env config\n".data)))
      (.seq (.lit ("ENV_TEMP=$(mktemp)\nchmod 600 \"$ENV_TEMP\"\ncat > \"$ENV_TEMP\" << EOF\n".data))
        (.seq (.grp .lazyStarAny)
          (.seq .bol
            (.seq (.lit ("EOF\n\n".data))
              (.seq (.opt (.lit ("# Upload and append to zshrc\n".data)))
                (.lit ("sprite exec -s \"$SPRITE_NAME\" -file \"$ENV_TEMP:/tmp/env_config\" -- bash -c \"cat /tmp/env_config >> ~/.zshrc && rm /tmp/env_config\"\nrm \"$ENV_TEMP\"\n".data))))))))

/-! ### The rewriters -/

/-- `' \\\n    '.join(env_vars)`. -/
def joinEnvArgs (env_vars : List (List Char)) : List Char :=
  List.intercalate (" \\\n    ".data) env_vars

/-- The replacement f-string of `refactor_ssh_cloud_script` (lines 99-102). -/
def sshReplacement (ipvar : List Char) (env_args : List Char) : List Char :=
  ("log_warn \"Setting up environment variables...\"\ninject_env_vars_ssh \"$".data) ++
    ipvar ++ ("\" upload_file run_server \\\n    ".data) ++ env_args ++ ("\n".data)

/-- The replacement f-string of `refactor_sprite_script` (lines 55-58). -/
def spriteReplacement (env_args : List Char) : List Char :=
  ("log_warn \"Setting up environment variables...\"\ninject_env_vars_sprite \"$SPRITE_NAME\" \\\n    ".data) ++
    env_args ++ ("\n".data)

/-- The text of group 1 of a search result, as a slice of the input. -/
def groupText (inp : List Char) : Option (Nat × Nat) → List Char
  | none => []
  | some (a, b) => (inp.take b).drop a

/-- The pattern `refactor_ssh_cloud_script` commits to: pattern 1 if it
matches anywhere in the file, otherwise pattern 2 (lines 68-74 of the
source; the repeated `pattern.search` at line 74 re-runs the same search). -/
def sshChosenPattern (content ipvar : List Char) : RExp :=
  if (reSearch (pattern1 ipvar) content).isSome then pattern1 ipvar else pattern2 ipvar

/-- `refactor_env_injection.refactor_ssh_cloud_script`, modelled on its
observable file state: the input is the file's text
(`filepath.read_text()`) and the result is the pair (return value, text on
disk when the call returns); the source writes `new_content` only on the
success path, and performs no other filesystem write. -/
def refactor_ssh_cloud_script (content ipvar : List Char) : Bool × List Char :=
  match reSearch (sshChosenPattern content ipvar) content with
  | none => (false, content)
  | some (_, _, g) =>
    if extract_env_args (groupText content g) = [] then (false, content)
    else if reSub (sshChosenPattern content ipvar)
        (sshReplacement ipvar (joinEnvArgs (extract_env_args (groupText content g))))
        content = content then (false, content)
    else (true, reSub (sshChosenPattern content ipvar)
        (sshReplacement ipvar (joinEnvArgs (extract_env_args (groupText content g))))
        content)

/-- `refactor_sprite_env.refactor_sprite_script`, modelled the same way. -/
def refactor_sprite_script (content : List Char) : Bool × List Char :=
  match reSearch spritePattern content with
  | none => (false, content)
  | some (_, _, g) =>
    if extract_env_args (groupText content g) = [] then (false, content)
    else if reSub spritePattern
        (spriteReplacement (joinEnvArgs (extract_env_args (groupText content g))))
        content = content then (false, content)
    else (true, reSub spritePattern
        (spriteReplacement (joinEnvArgs (extract_env_args (groupText content g))))
        content)

/-! ### The batch drivers -/

/-- The aggregation and exit code of `refactor_env_injection.main` (lines
126-142), abstracted over the per-script return values of
`refactor_ssh_cloud_script` (file discovery is filesystem behavior outside
the modelled core): `total` counts processed scripts, `success` counts
`True` returns, and the process exits with `0 if success == total else 1`.
`refactor_sprite_env.main` aggregates identically. -/
def refactor_main_exit (results : List Bool) : Nat :=
  if (results.filter (fun b => b)).length = results.length then 0 else 1

/-- The observable outcome of `fix_braces.main` (lines 91-111), abstracted
over the per-file results of `fix_file`: the pair (number of files fixed,
process exit status).  `main` returns `None` and is invoked without
`sys.exit`, so the interpreter exits with status 0 regardless of how many
files failed. -/
def fix_braces_main (results : List Bool) : Nat × Nat :=
  ((results.filter (fun b => b)).length, 0)

/-! ### Substring lemmas -/

theorem containsSub_cons (pat : List Char) (c : Char) (rest : List Char) :
    containsSub pat (c :: rest) = (pat.isPrefixOf (c :: rest) || containsSub pat rest) := rfl

theorem containsSub_tail_false (pat : List Char) (c : Char) (rest : List Char)
    (h : containsSub pat (c :: rest) = false) : containsSub pat rest = false := by
  simp only [containsSub, Bool.or_eq_false_iff] at h
  exact h.2

theorem containsSub_head_false (pat : List Char) (c : Char) (rest : List Char)
    (h : containsSub pat (c :: rest) = false) : pat.isPrefixOf (c :: rest) = false := by
  simp only [containsSub, Bool.or_eq_false_iff] at h
  exact h.1

theorem isPrefixOf_cons_cons (x a : Char) (p t : List Char) :
    (x :: p).isPrefixOf (a :: t) = ((x == a) && p.isPrefixOf t) := rfl

theorem isPrefixOf_cons_false_of_ne (a c : Char) (p rest : List Char) (h : a ≠ c) :
    (a :: p).isPrefixOf (c :: rest) = false := by
  rw [isPrefixOf_cons_cons, beq_eq_false_iff_ne.mpr h, Bool.false_and]

theorem containsSub_dollar_append (p xs t : List Char) (h : ∀ x ∈ xs, x ≠ '$') :
    containsSub ('$' :: p) (xs ++ t) = containsSub ('$' :: p) t := by
  induction xs with
  | nil => rfl
  | cons c cs ih =>
    have hc : ('$' :: p).isPrefixOf (c :: (cs ++ t)) = false :=
      isPrefixOf_cons_false_of_ne _ _ _ _ (Ne.symm (h c (by simp)))
    rw [List.cons_append, containsSub_cons, hc, Bool.false_or,
      ih (fun x hx => h x (List.mem_cons_of_mem _ hx))]

theorem containsSub_append_left (pat u t : List Char)
    (h : containsSub pat (u ++ t) = false) : containsSub pat t = false := by
  induction u with
  | nil => exact h
  | cons x xs ih => exact ih (containsSub_tail_false _ _ _ h)

theorem containsSub_false_of_suffix (pat r t : List Char) (hs : t <:+ r)
    (h : containsSub pat r = false) : containsSub pat t = false := by
  rcases hs with ⟨u, hu⟩
  subst hu
  exact containsSub_append_left pat u t h

/-! ### The scanner never emits a bracketed special sigil -/

theorem scan_no_special_brace (c : Char) (hc : isSpecialSigil c = true) :
    ∀ l : List Char, containsSub ['$', '{'] l = false →
      containsSub ['$', '{', c] (scan l) = false := by
  suffices H : ∀ (n : Nat) (l : List Char), l.length ≤ n →
      containsSub ['$', '{'] l = false →
      containsSub ['$', '{', c] (scan l) = false from
    fun l h => H l.length l le_rfl h
  intro n
  induction n with
  | zero =>
    intro l hl _
    have hnil : l = [] := List.length_eq_zero.mp (Nat.le_zero.mp hl)
    subst hnil
    rfl
  | succ n ih =>
    intro l hl hin
    match l with
    | [] => rfl
    | a :: rest =>
      have hrest : rest.length ≤ n := by simp at hl; omega
      have hin2 : containsSub ['$', '{'] rest = false := containsSub_tail_false _ _ _ hin
      by_cases ha : a = '$'
      · subst ha
        match rest with
        | [] => simp [scan_dollar_nil, containsSub, List.isPrefixOf]
        | d :: r =>
          have hr : r.length ≤ n := by simp at hrest; omega
          have hin3 : containsSub ['$', '{'] r = false := containsSub_tail_false _ _ _ hin2
          by_cases h1 : d = '{'
          · exfalso
            subst h1
            have := containsSub_head_false _ _ _ hin
            rw [isPrefixOf_cons_cons, isPrefixOf_cons_cons] at this
            simp at this
          · by_cases h2 : isSpecialSigil d = true
            · rw [scan_special d r h2]
              have hp0 : (['$', '{', c]).isPrefixOf ('$' :: d :: scan r) = false := by
                rw [isPrefixOf_cons_cons, isPrefixOf_cons_cons,
                  beq_eq_false_iff_ne.mpr (Ne.symm h1), Bool.false_and, Bool.and_false]
              rw [containsSub_cons, hp0, Bool.false_or, containsSub_cons]
              by_cases hd : d = '$'
              · subst hd
                have hbr : (['{'] : List Char).isPrefixOf r = false := by
                  have := containsSub_head_false _ _ _ hin2
                  rw [isPrefixOf_cons_cons] at this
                  simpa using this
                have hscanr : (['{', c]).isPrefixOf (scan r) = false := by
                  match r, hbr with
                  | [], _ => rfl
                  | e :: r2, hbr =>
                    have hbeq : (('{' : Char) == e) = false := by
                      rw [isPrefixOf_cons_cons] at hbr
                      simpa using hbr
                    obtain ⟨t, ht⟩ := scan_head e r2
                    rw [ht, isPrefixOf_cons_cons, hbeq, Bool.false_and]
                have hp1 : (['$', '{', c]).isPrefixOf ('$' :: scan r) = false := by
                  rw [isPrefixOf_cons_cons, hscanr, Bool.and_false]
                rw [hp1, Bool.false_or]
                exact ih r hr hin3
              · have hp1 : (['$', '{', c]).isPrefixOf (d :: scan r) = false :=
                  isPrefixOf_cons_false_of_ne _ _ _ _ (Ne.symm hd)
                rw [hp1, Bool.false_or]
                exact ih r hr hin3
            · by_cases h3 : identStart d = true
              · rw [scan_ident d r h3]
                have hcd : ¬ c = d := by
                  intro hcd
                  subst hcd
                  rw [identStart_not_special c h3] at hc
                  exact Bool.false_ne_true hc
                have hp0 : (['$', '{', c]).isPrefixOf
                    ('$' :: '{' :: d :: (r.takeWhile identChar ++ '}' ::
                      scan (r.dropWhile identChar))) = false := by
                  rw [isPrefixOf_cons_cons, isPrefixOf_cons_cons, isPrefixOf_cons_cons,
                    beq_eq_false_iff_ne.mpr hcd, Bool.false_and, Bool.and_false,
                    Bool.and_false]
                rw [containsSub_cons, hp0, Bool.false_or, containsSub_cons,
                  isPrefixOf_cons_false_of_ne _ _ _ _ (by decide : '$' ≠ '{'), Bool.false_or]
                have hxs : ∀ x ∈ d :: r.takeWhile identChar, x ≠ '$' := by
                  intro x hx
                  rcases List.mem_cons.mp hx with rfl | hx2
                  · exact identStart_ne_dollar x h3
                  · exact identChar_ne_dollar x (List.mem_takeWhile_imp hx2)
                have hjoin : d :: (r.takeWhile identChar ++ '}' ::
                    scan (r.dropWhile identChar)) =
                    (d :: r.takeWhile identChar) ++ '}' ::
                    scan (r.dropWhile identChar) := by simp
                rw [hjoin, containsSub_dollar_append _ _ _ hxs, containsSub_cons,
                  isPrefixOf_cons_false_of_ne _ _ _ _ (by decide : '$' ≠ '}'), Bool.false_or]
                have hdw : (r.dropWhile identChar).length ≤ n :=
                  le_trans (List.dropWhile_sublist _).length_le hr
                have hindw : containsSub ['$', '{'] (r.dropWhile identChar) = false :=
                  containsSub_false_of_suffix _ _ _ (List.dropWhile_suffix _) hin3
                exact ih _ hdw hindw
              · have h2b : isSpecialSigil d = false := Bool.eq_false_iff.mpr h2
                have h3b : identStart d = false := Bool.eq_false_iff.mpr h3
                have hd : d ≠ '$' := by
                  rintro rfl
                  rw [(by decide : isSpecialSigil '$' = true)] at h2b
                  exact Bool.false_ne_true h2b.symm
                rw [scan_other d r h1 h2b h3b, scan_cons_ne d r hd]
                have hp0 : (['$', '{', c]).isPrefixOf ('$' :: d :: scan r) = false := by
                  rw [isPrefixOf_cons_cons, isPrefixOf_cons_cons,
                    beq_eq_false_iff_ne.mpr (Ne.symm h1), Bool.false_and, Bool.and_false]
                rw [containsSub_cons, hp0, Bool.false_or, containsSub_cons,
                  isPrefixOf_cons_false_of_ne _ _ _ _ (Ne.symm hd), Bool.false_or]
                exact ih r hr hin3
      · rw [scan_cons_ne a rest ha]
        rw [containsSub_cons, isPrefixOf_cons_false_of_ne _ _ _ _ (Ne.symm ha), Bool.false_or]
        exact ih rest hrest hin2

/-! ### Frame lemmas for `reSub` -/

theorem reMs_le (r : RExp) :
    ∀ (prev : Option Char) (inp : List Char), ∀ m ∈ reMs r prev inp, m.1 ≤ inp.length := by
  induction r with
  | lit s =>
    intro prev inp m hm
    simp only [reMs] at hm
    split at hm
    · next h =>
      simp only [List.mem_singleton] at hm
      subst hm
      exact (List.isPrefixOf_iff_prefix.mp h).length_le
    · simp at hm
  | plusCls p =>
    intro prev inp m hm
    simp only [reMs, List.mem_map, List.mem_range] at hm
    obtain ⟨j, hj, hjm⟩ := hm
    subst hjm
    exact le_trans (Nat.sub_le _ _) (List.takeWhile_sublist _).length_le
  | lazyStarAny =>
    intro prev inp m hm
    simp only [reMs, List.mem_map, List.mem_range] at hm
    obtain ⟨j, hj, hjm⟩ := hm
    subst hjm
    omega
  | seq a b iha ihb =>
    intro prev inp m hm
    simp only [reMs, List.mem_flatMap, List.mem_map] at hm
    obtain ⟨pr, hpr, qr, hqr, hqm⟩ := hm
    subst hqm
    have h1 := iha prev inp pr hpr
    have h2 := ihb _ _ qr hqr
    simp only [List.length_drop] at h2
    simp only []
    omega
  | alt a b iha ihb =>
    intro prev inp m hm
    simp only [reMs, List.mem_append] at hm
    rcases hm with hm | hm
    · exact iha prev inp m hm
    · exact ihb prev inp m hm
  | grp r ihr =>
    intro prev inp m hm
    simp only [reMs, List.mem_map] at hm
    obtain ⟨pr, hpr, hpm⟩ := hm
    subst hpm
    exact ihr prev inp pr hpr
  | opt r ihr =>
    intro prev inp m hm
    simp only [reMs, List.mem_append, List.mem_singleton] at hm
    rcases hm with hm | hm
    · exact ihr prev inp m hm
    · subst hm; simp
  | bol =>
    intro prev inp m hm
    simp only [reMs] at hm
    split at hm
    · simp only [List.mem_singleton] at hm
      subst hm
      simp
    · simp at hm

theorem subFuel_of_search_none (r : RExp) (tmpl : List Char) (prev : Option Char)
    (inp : List Char) (h : searchFrom r prev 0 inp = none) :
    ∀ f, subFuel r tmpl f prev inp = inp := by
  intro f
  cases f with
  | zero => rfl
  | succ f => simp only [subFuel, h]

/-- If the pattern matches exactly once (a match at `[s, s+n)` and no
further match after it), `re.sub` replaces exactly that one contiguous
region: every byte before position `s` and every byte from position `s+n`
on is preserved. -/
theorem reSub_single (r : RExp) (tmpl inp : List Char) (s n : Nat) (g : Option (Nat × Nat))
    (hs : searchFrom r none 0 inp = some (s, n, g)) (hn : n ≠ 0)
    (hrest : searchFrom r ((inp.take (s + n)).getLast?) 0 (inp.drop (s + n)) = none) :
    reSub r tmpl inp =
      inp.take s ++ expandTemplate (groupText inp g) tmpl ++ inp.drop (s + n) := by
  cases inp with
  | nil =>
    exfalso
    simp only [searchFrom] at hs
    cases hr : reMs r none [] with
    | nil => rw [hr] at hs; exact Option.noConfusion hs
    | cons m ms =>
      rw [hr] at hs
      have hle := reMs_le r none [] m (by rw [hr]; simp)
      simp only [List.length_nil, Nat.le_zero] at hle
      simp only [Option.some.injEq, Prod.mk.injEq] at hs
      exact hn (hs.2.1 ▸ hle)
  | cons c rest =>
    show subFuel r tmpl (rest.length + 1) none (c :: rest) = _
    simp only [subFuel, hs, if_neg hn]
    rw [subFuel_of_search_none r tmpl _ _ hrest]
    rfl

/-! ### Miscellaneous lemmas for the claim theorems -/

theorem filter_length_eq_iff (results : List Bool) :
    ((results.filter (fun b => b)).length = results.length) ↔ (∀ r ∈ results, r = true) := by
  induction results with
  | nil => simp
  | cons b bs ih =>
    cases b
    · have hle := List.length_filter_le (fun b => b) bs
      simp only [List.filter_cons, List.length_cons]
      constructor
      · intro h
        simp at h
        omega
      · intro h
        exact absurd (h false (by simp)) (by simp)
    · simp only [List.filter_cons, List.length_cons]
      simp [ih]

theorem refactor_ssh_fail_frame (content ipvar : List Char)
    (h : (refactor_ssh_cloud_script content ipvar).1 = false) :
    (refactor_ssh_cloud_script content ipvar).2 = content := by
  unfold refactor_ssh_cloud_script at h ⊢
  cases hm : reSearch (sshChosenPattern content ipvar) content with
  | none => simp [hm]
  | some m =>
    obtain ⟨s, n, g⟩ := m
    simp only [hm] at h ⊢
    by_cases he : extract_env_args (groupText content g) = []
    · simp [he]
    · by_cases hc : reSub (sshChosenPattern content ipvar)
          (sshReplacement ipvar (joinEnvArgs (extract_env_args (groupText content g))))
          content = content
      · simp [he, hc]
      · simp [he, hc] at h

/-! ### Concrete demonstration inputs -/

/-- A file containing the compact (pattern 2) env-injection idiom exactly
once, with destination identifier `IP` and two export lines. -/
def demoIdiom : List Char :=
  ("before\nlog_warn \"Setting up environment variables...\"\nENV_TEMP=$(mktemp)\nchmod 600 \"$ENV_TEMP\"\ncat > \"$ENV_TEMP\" << EOF\nexport A=1\nexport B=\"${OPENROUTER_API_KEY}\"\nEOF\nupload_file \"$IP\" \"$ENV_TEMP\" \"/tmp/env_config\"\nrun_server \"$IP\" \"cat /tmp/env_config >> ~/.zshrc && rm /tmp/env_config\"\nrm \"$ENV_TEMP\"\nafter\n").data

/-- One copy of the compact idiom block (destination identifier `IP`). -/
def demoBlock : List Char :=
  ("log_warn \"Setting up environment variables...\"\nENV_TEMP=$(mktemp)\nchmod 600 \"$ENV_TEMP\"\ncat > \"$ENV_TEMP\" << EOF\nexport A=1\nEOF\nupload_file \"$IP\" \"$ENV_TEMP\" \"/tmp/env_config\"\nrun_server \"$IP\" \"cat /tmp/env_config >> ~/.zshrc && rm /tmp/env_config\"\nrm \"$ENV_TEMP\"\n").data

/-- A file containing the compact idiom twice. -/
def demoTwoIdioms : List Char :=
  demoBlock ++ ("mid\n").data ++ demoBlock ++ ("zz\n").data

/-! ### Claim theorems -/

/-- C1, amended: only the brace-scanner pipeline follows the
commit-or-rollback discipline.  `fix_file` commits the rewritten lines to
disk only if the syntax-validity oracle accepts them: if the oracle
rejects the rewritten lines the function leaves the file bit-identical to
its pre-run snapshot; whenever it reports success the committed text is
the rewritten text and the oracle accepted it; whenever it reports failure
the disk is unchanged. -/
theorem C1_theorem (oracle : List (List Char) → Bool) (lines : List (List Char)) :
    (oracle (lines.map add_braces_to_line) = false → fix_file oracle lines = (false, lines)) ∧
    ((fix_file oracle lines).1 = true →
      (fix_file oracle lines).2 = lines.map add_braces_to_line ∧
      oracle ((fix_file oracle lines).2) = true) ∧
    ((fix_file oracle lines).1 = false → (fix_file oracle lines).2 = lines) := by
  unfold fix_file
  by_cases h1 : lines = lines.map add_braces_to_line
  · simp [← h1]
  · by_cases h2 : oracle (lines.map add_braces_to_line) = true
    · simp [h1, h2]
    · simp [h1, h2]

/-- C1 witness: with the all-rejecting oracle, `fix_file` leaves the file
untouched and reports failure. -/
theorem C1_witness :
    fix_file (fun _ => false) [("echo $HOME\n".data)] = (false, [("echo $HOME\n".data)]) :=
  (C1_theorem (fun _ => false) [("echo $HOME\n".data)]).1 rfl

set_option maxRecDepth 400000 in
/-- C1 counterexample: the env-injection pipeline consults no
syntax-validity oracle at all.  On `demoIdiom` it commits a changed file
unconditionally, so the claim "rewritten text is committed only if the
oracle accepts it" fails: no matter which oracle is designated (here the
all-rejecting one), the commit happens without its approval. -/
theorem C1_counterexample :
    ¬ (∀ oracle : List Char → Bool,
        (refactor_ssh_cloud_script demoIdiom ("IP".data)).2 ≠ demoIdiom →
        oracle ((refactor_ssh_cloud_script demoIdiom ("IP".data)).2) = true) := by
  intro h
  have hfalse := h (fun _ => false) (by decide)
  exact Bool.false_ne_true hfalse

/-- C2: the Reference Scanner is idempotent: applying `add_braces_to_line`
twice to any line yields the same output as applying it once. -/
theorem C2_theorem (l : List Char) :
    add_braces_to_line (add_braces_to_line l) = add_braces_to_line l :=
  add_braces_to_line_idem l

/-- C3: whenever the idiom pattern finds no match, or zero export lines are
extracted from the matched heredoc body, or the substituted text is
identical to the original, `refactor_ssh_cloud_script` reports failure and
the on-disk bytes equal the pre-run bytes; and more generally every
failure report leaves the file byte-identical. -/
theorem C3_theorem (content ipvar : List Char) :
    ((refactor_ssh_cloud_script content ipvar).1 = false →
      (refactor_ssh_cloud_script content ipvar).2 = content) ∧
    (reSearch (pattern1 ipvar) content = none →
      reSearch (pattern2 ipvar) content = none →
      refactor_ssh_cloud_script content ipvar = (false, content)) ∧
    (∀ s n g, reSearch (sshChosenPattern content ipvar) content = some (s, n, g) →
      extract_env_args (groupText content g) = [] →
      refactor_ssh_cloud_script content ipvar = (false, content)) ∧
    (∀ s n g, reSearch (sshChosenPattern content ipvar) content = some (s, n, g) →
      reSub (sshChosenPattern content ipvar)
        (sshReplacement ipvar (joinEnvArgs (extract_env_args (groupText content g))))
        content = content →
      refactor_ssh_cloud_script content ipvar = (false, content)) := by
  refine ⟨refactor_ssh_fail_frame content ipvar, ?_, ?_, ?_⟩
  · intro h1 h2
    have hchosen : sshChosenPattern content ipvar = pattern2 ipvar := by
      unfold sshChosenPattern
      simp [h1]
    unfold refactor_ssh_cloud_script
    rw [hchosen, h2]
  · intro s n g hm he
    unfold refactor_ssh_cloud_script
    rw [hm]
    simp [he]
  · intro s n g hm hc
    unfold refactor_ssh_cloud_script
    rw [hm]
    by_cases he : extract_env_args (groupText content g) = []
    · simp [he]
    · simp [he, hc]

/-- C3 witness: on a file without the idiom, the refactor reports failure
and leaves the text unchanged. -/
theorem C3_witness :
    refactor_ssh_cloud_script ("hello\n".data) ("IP".data) = (false, ("hello\n".data)) :=
  (C3_theorem ("hello\n".data) ("IP".data)).2.1 (by decide) (by decide)

/-- C4, amended: when the idiom pattern matches exactly once (a match at
`[s, s+n)` and no further match after it), the substitution of a
successful rewrite replaces exactly that one contiguous region and every
byte outside the MatchSpan is preserved; when the pattern occurs more than
once, `pattern.sub` replaces every non-overlapping occurrence, not just
the MatchSpan. -/
theorem C4_theorem (r : RExp) (tmpl inp : List Char) (s n : Nat) (g : Option (Nat × Nat))
    (hs : searchFrom r none 0 inp = some (s, n, g)) (hn : n ≠ 0)
    (hrest : searchFrom r ((inp.take (s + n)).getLast?) 0 (inp.drop (s + n)) = none) :
    reSub r tmpl inp =
      inp.take s ++ expandTemplate (groupText inp g) tmpl ++ inp.drop (s + n) :=
  reSub_single r tmpl inp s n g hs hn hrest

set_option maxRecDepth 400000 in
/-- C4 witness: on the single-occurrence file `demoIdiom`, the substitution
replaces exactly the matched span `[7, 304)`. -/
theorem C4_witness :
    reSub (pattern2 ("IP".data)) ("X".data) demoIdiom =
      demoIdiom.take 7 ++ expandTemplate (groupText demoIdiom (some (120, 164))) ("X".data) ++
        demoIdiom.drop 304 :=
  C4_theorem (pattern2 ("IP".data)) ("X".data) demoIdiom 7 297 (some (120, 164))
    (by decide) (by decide) (by decide)

set_option maxRecDepth 400000 in
/-- C4 counterexample: on `demoTwoIdioms` the idiom occurs twice; the
rewrite succeeds, the MatchSpan is `[0, 264)`, yet the bytes after the
MatchSpan are not preserved (the second occurrence is replaced too), so
"every byte of text outside the MatchSpan is preserved" fails for files in
which the idiom occurs more than once. -/
theorem C4_counterexample :
    (refactor_ssh_cloud_script demoTwoIdioms ("IP".data)).1 = true ∧
    reSearch (pattern2 ("IP".data)) demoTwoIdioms = some (0, 264, some (113, 124)) ∧
    ((demoTwoIdioms.drop 264).isSuffixOf
      ((refactor_ssh_cloud_script demoTwoIdioms ("IP".data)).2)) = false := by
  refine ⟨by decide, by decide, by decide⟩

/-- C5, amended: the extractor removes every occurrence of the substring
`export ` from the trimmed line (`str.replace` replaces all occurrences),
not only the leading keyword; in particular, for every value that does not
itself contain `export `, exactly the single leading keyword is stripped,
leaving the KEY=VALUE expression unchanged apart from nested-reference
canonicalization. -/
theorem C5_theorem (v : List Char) (h : containsSub ("export ".data) v = false) :
    processExportLine (("export ".data) ++ v) = '"' :: (canonEnvRefs v ++ ['"']) := by
  unfold processExportLine
  rw [pyReplace_prefix_step _ _ _ (by decide), List.nil_append,
    pyReplace_of_no_occurrence _ _ _ h]

/-- C5 witness: the line `export A=1` is stripped of exactly the leading
keyword. -/
theorem C5_witness :
    processExportLine (("export ".data) ++ ("A=1".data)) =
      '"' :: (canonEnvRefs ("A=1".data) ++ ['"']) :=
  C5_theorem ("A=1".data) (by decide)

/-- C5 counterexample: for the heredoc line `export A=export B` the
extractor yields `"A=B"`, not `"A=export B"`: the `export ` occurrence
inside the value is removed as well, so the claim that the value is left
otherwise unchanged fails. -/
theorem C5_counterexample :
    extract_env_args ("export A=export B".data) = [("\"A=B\"".data)] ∧
    [("\"A=B\"".data)] ≠ [("\"A=export B\"".data)] := by
  refine ⟨by decide, by decide⟩

/-- C6, amended: canonicalization collapses all three reference forms of
`OPENROUTER_API_KEY` (double-quoted bracketed, bracketed, bare) to the
bare form, but for `MODEL_ID` only the bracketed form is rewritten: the
double-quoted bracketed form keeps its surrounding quotes, yielding
`"$MODEL_ID"` rather than the bare form, so lines using that form do not
extract identically to the other two. -/
theorem C6_theorem :
    (extract_env_args ("export X=\"${OPENROUTER_API_KEY}\"".data) =
        [("\"X=$OPENROUTER_API_KEY\"".data)] ∧
      extract_env_args ("export X=${OPENROUTER_API_KEY}".data) =
        [("\"X=$OPENROUTER_API_KEY\"".data)] ∧
      extract_env_args ("export X=$OPENROUTER_API_KEY".data) =
        [("\"X=$OPENROUTER_API_KEY\"".data)]) ∧
    (extract_env_args ("export X=${MODEL_ID}".data) = [("\"X=$MODEL_ID\"".data)] ∧
      extract_env_args ("export X=$MODEL_ID".data) = [("\"X=$MODEL_ID\"".data)] ∧
      extract_env_args ("export X=\"${MODEL_ID}\"".data) =
        [("\"X=\"$MODEL_ID\"\"".data)]) := by
  refine ⟨⟨by decide, by decide, by decide⟩, by decide, by decide, by decide⟩

/-- C6 counterexample: two heredoc export lines that differ only in using
the double-quoted bracketed versus the bracketed form of `MODEL_ID`
extract to different assignment strings. -/
theorem C6_counterexample :
    extract_env_args ("export X=\"${MODEL_ID}\"".data) ≠
      extract_env_args ("export X=${MODEL_ID}".data) := by
  decide

/-- C7: the sequence of quoted KEY=VALUE arguments rendered into the
replacement call is exactly the sequence of qualifying export lines of the
original heredoc body, each processed by the per-line rendering, in the
same order and with the same length. -/
theorem C7_theorem (heredoc : List Char) :
    extract_env_args heredoc = (qualifyingExportLines heredoc).map processExportLine ∧
    (extract_env_args heredoc).length = (qualifyingExportLines heredoc).length := by
  have h := extractLoop_eq_filter_map (splitNL heredoc)
  refine ⟨h, ?_⟩
  rw [extract_env_args, h, qualifyingExportLines, List.length_map]

/-- C8: for every sigil in the special/positional set, the scanner never
emits a bracketed form for an occurrence of `$` immediately followed by
that sigil: such an occurrence is copied verbatim into the output (stated
for an occurrence at the first `$` of the line, for any surrounding
content), and on any line with no pre-existing `${` the scanner's output
never contains `${` followed by the special sigil. -/
theorem C8_theorem (c : Char) (hc : isSpecialSigil c = true) :
    (∀ u v : List Char, (∀ x ∈ u, x ≠ '$') →
      scan (u ++ '$' :: c :: v) = u ++ '$' :: c :: scan v) ∧
    (∀ l : List Char, containsSub ['$', '{'] l = false →
      containsSub ['$', '{', c] (scan l) = false) := by
  constructor
  · intro u v hu
    rw [scan_append_of_no_dollar u _ hu, scan_special c v hc]
  · exact scan_no_special_brace c hc

/-- C8 witness: `$1` in `echo $1 ok` is copied verbatim, never bracketed. -/
theorem C8_witness :
    scan (("echo ".data) ++ '$' :: '1' :: (" ok".data)) =
      ("echo ".data) ++ '$' :: '1' :: scan (" ok".data) := by
  have h := C8_theorem '1' (by decide)
  exact h.1 ("echo ".data) (" ok".data) (by decide)

/-- C9: concrete scanner contract: `echo $FOO and $1 and ${BAR}` scans to
`echo ${FOO} and $1 and ${BAR}`: the unbracketed identifier reference is
bracketed, the positional parameter and the already-bracketed reference
are left untouched. -/
theorem C9_theorem :
    add_braces_to_line ("echo $FOO and $1 and ${BAR}".data) =
      ("echo ${FOO} and $1 and ${BAR}".data) := by
  decide

/-- C10, amended: the env-injection batch drivers exit with 0 exactly when
every processed candidate was successfully transformed (and 1 otherwise,
with the successful transformations already applied), but the brace-fixer
driver `fix_braces.main` always exits with status 0, even when candidates
fail. -/
theorem C10_theorem :
    (∀ results : List Bool, refactor_main_exit results = 0 ↔ ∀ r ∈ results, r = true) ∧
    (∀ results : List Bool, (fix_braces_main results).2 = 0) := by
  constructor
  · intro results
    unfold refactor_main_exit
    by_cases h : (results.filter (fun b => b)).length = results.length
    · simp only [h, if_true]
      simpa using (filter_length_eq_iff results).mp h
    · simp only [h, if_false]
      constructor
      · intro h0
        exact absurd h0 one_ne_zero
      · intro hall
        exact absurd ((filter_length_eq_iff results).mpr hall) h
  · intro results
    rfl

/-- C10 counterexample: a candidate file of the brace-fixer batch fails
(the oracle rejects its rewrite, `fix_file` returns `False`), yet the
driver's process completion signal is 0, not non-zero. -/
theorem C10_counterexample :
    (fix_file (fun _ => false) [("echo $HOME\n".data)]).1 = false ∧
    (fix_braces_main [(fix_file (fun _ => false) [("echo $HOME\n".data)]).1]).2 = 0 := by
  refine ⟨by decide, by decide⟩

end Spawn
